import Mathlib

/-!
Verification development for the detection-evaluation engine in
`utils/metrics.py` (YOLOv7 fork).

The Python source is shallowly embedded over `List ℚ`:

* a detection row is `[x1, y1, x2, y2, conf, cls]`, a label row is
  `[cls, x1, y1, x2, y2]`, both as `List ℚ`;
* `box_iou` is an external collaborator (a pure function), so matching code is
  parametrised by an IoU function applied to the label-box / detection-box
  slices exactly where the source calls `general.box_iou`;
* numpy / torch float arrays become lists of rationals; `.int()` truncation
  becomes `toIdx`; in-place confusion-matrix writes become explicit state
  passing over `ℕ → ℕ → ℕ`;
* calls that raise (`torch.cat` on an empty list, a failing renderer) are
  modelled with `Option` / `Except`.

Sorting note: `np.argsort` over float keys is modelled with the stable
`List.insertionSort`; the claims proved below are insensitive to how ties
between equal keys are broken.
-/

namespace Metrics

abbrev Row := List ℚ

abbrev IouFn := Row → Row → ℚ

/-- One surviving candidate pair: (label index, detection index, IoU value). -/
abbrev MatchT := ℕ × ℕ × ℚ

/-- Translation of `.int()` (truncation toward zero) for the non-negative
class columns. -/
def toIdx (q : ℚ) : ℕ := (q.num / (q.den : ℤ)).toNat

/-- Running maximum with carried accumulator (tail of
`np.maximum.accumulate`). -/
def maxAccumAux (c : ℚ) : List ℚ → List ℚ
  | [] => []
  | x :: xs => max c x :: maxAccumAux (max c x) xs

/-- `np.maximum.accumulate`: element `i` of the result is the maximum of the
first `i + 1` input elements. -/
def maxAccumulate : List ℚ → List ℚ
  | [] => []
  | x :: xs => x :: maxAccumAux x xs

/-- Tail of `np.cumsum` on a flat array. -/
def cumsumAux (c : ℚ) : List ℚ → List ℚ
  | [] => []
  | x :: xs => (c + x) :: cumsumAux (c + x) xs

/-- `np.cumsum` on a flat array. -/
def cumsum : List ℚ → List ℚ
  | [] => []
  | x :: xs => x :: cumsumAux x xs

/-- Tail of `cumsum(0)` on a 2-d array: rows are accumulated elementwise. -/
def cumsumAxis0Aux (acc : Row) : List Row → List Row
  | [] => []
  | r :: rs =>
    List.zipWith (fun a b => a + b) acc r ::
      cumsumAxis0Aux (List.zipWith (fun a b => a + b) acc r) rs

/-- `np.ndarray.cumsum(0)`: columnwise running sums down the rows. -/
def cumsumAxis0 : List Row → List Row
  | [] => []
  | r :: rs => r :: cumsumAxis0Aux r rs

/-- Column `j` of a 2-d array (out-of-range entries default to `0`, as they
are never read by the embedded code on well-formed input). -/
def getCol (j : ℕ) (rows : List Row) : List ℚ := rows.map (fun r => r.getD j 0)

/-- `torch.max` over a 1-d tensor (only ever called on non-empty input). -/
def torchMax : List ℚ → ℚ
  | [] => 0
  | x :: xs => xs.foldl max x

/-- `np.argmax`: index of the first occurrence of the maximum. -/
def argmaxIdx (l : List ℚ) : ℕ :=
  (l.enum.foldl (fun acc p => if acc.2 < p.2 then p else acc) (0, l.headI)).1

/-- Linear interpolation over the segment list (tail of `np.interp`); past the
last point the last ordinate is returned. -/
def interpSegs (x : ℚ) : List (ℚ × ℚ) → ℚ
  | [] => 0
  | [(_, fa)] => fa
  | (xa, fa) :: (xb, fb) :: rest =>
    if x ≤ xb then fa + (fb - fa) * (x - xa) / (xb - xa)
    else interpSegs x ((xb, fb) :: rest)

/-- `np.interp x xp fp` with an optional `left` default (the source passes
`left=0` / `left=1`; `none` keeps numpy's default, the first ordinate). -/
def npInterp (x : ℚ) (xp fp : List ℚ) (left : Option ℚ) : ℚ :=
  match xp.zip fp with
  | [] => 0
  | (x0, f0) :: rest =>
    if x < x0 then left.getD f0
    else interpSegs x ((x0, f0) :: rest)

/-- `np.trapz y x`: trapezoidal integral of `y` over abscissas `x`. -/
def trapz (y x : List ℚ) : ℚ :=
  (List.zipWith (fun p q => (q.1 - p.1) * (p.2 + q.2) / 2) (x.zip y)
    (x.zip y).tail).sum

/-- The 101-point COCO integration grid `np.linspace 0 1 101`. -/
def apGrid : List ℚ := (List.range 101).map (fun k => (k : ℚ) / 100)

/-- The 1000-point plotting/operating grid `np.linspace 0 1 1000`. -/
def pxGrid : List ℚ := (List.range 1000).map (fun k => (k : ℚ) / 999)

/-- The `1e-16` guard used by `ap_per_class`. -/
def epsQ : ℚ := 1 / 10 ^ 16

/-- Sentinel-padded recall array of `compute_ap`:
`np.concatenate(([0.0], recall, [recall[-1] + 0.01]))`. -/
def apMrec (recl : List ℚ) : List ℚ :=
  0 :: (recl ++ [recl.getLastD 0 + 1 / 100])

/-- Sentinel-padded precision array of `compute_ap`:
`np.concatenate(([1.0], precision, [0.0]))`. -/
def apMpre (precision : List ℚ) : List ℚ := 1 :: (precision ++ [0])

/-- The precision envelope of `compute_ap`:
`np.flip(np.maximum.accumulate(np.flip(mpre)))`. -/
def apEnvelope (precision : List ℚ) : List ℚ :=
  (maxAccumulate (apMpre precision).reverse).reverse

/-- `compute_ap recall precision = (ap, mpre, mrec)` with the `'interp'`
(101-point COCO) integration method of the source. -/
def computeAp (recl prec : List ℚ) : ℚ × List ℚ × List ℚ :=
  let mrec := apMrec recl
  let mpre := apEnvelope prec
  (trapz (apGrid.map (fun xi => npInterp xi mrec mpre none)) apGrid, mpre, mrec)

/- Generic facts about the running maximum, used for the envelope claims. -/

/-
ConfusionMatrix (`ConfusionMatrix.process_batch`).

The candidate pairs `torch.where(iou > iou_thres)` are enumerated row-major;
`np.unique(col, return_index=True)` keeps, per key value in ascending key
order, the first row carrying that key.
-/

/-- All pairs surviving `iou > iou_thres`, in `torch.where` row-major order.
Row `i` of the label tensor contributes its box slice `labels[:, 1:]`, row `j`
of the detection tensor its slice `detections[:, :4]`, fed to the external
`box_iou`. -/
def iouCandidates (iouFn : IouFn) (iouTh : ℚ) (labels dets : List Row) :
    List MatchT :=
  (List.range labels.length).flatMap (fun i =>
    (List.range dets.length).filterMap (fun j =>
      if iouFn ((labels.getD i []).drop 1) ((dets.getD j []).take 4) > iouTh
      then some (i, j, iouFn ((labels.getD i []).drop 1) ((dets.getD j []).take 4))
      else none))

/-- `ms[ms[:, 2].argsort()[::-1]]`: stable sort by descending IoU. -/
def sortIouDesc (ms : List MatchT) : List MatchT :=
  List.insertionSort (fun a b : MatchT => b.2.2 ≤ a.2.2) ms

/-- `ms[np.unique(key column, return_index=True)[1]]`: one row per key,
the first occurrence, rows ordered by ascending key. -/
def uniqueByKey (key : MatchT → ℕ) (ms : List MatchT) : List MatchT :=
  (List.insertionSort (· ≤ ·) (ms.map key).dedup).filterMap
    (fun k => ms.find? (fun m => key m == k))

/-- The match construction of `ConfusionMatrix.process_batch`: keep pairs
above the IoU threshold; with more than one survivor run the two-pass greedy
dedup (first per detection index, then per label index). -/
def cmMatches (iouFn : IouFn) (iouTh : ℚ) (labels dets : List Row) :
    List MatchT :=
  let c := iouCandidates iouFn iouTh labels dets
  if c.isEmpty then []
  else if 1 < c.length then
    uniqueByKey (fun m => m.1)
      (sortIouDesc (uniqueByKey (fun m => m.2.1) (sortIouDesc c)))
  else c

/-- One `matrix[i, j] += 1` update of the `(nc+1) × (nc+1)` count matrix. -/
def bump (i j : ℕ) (m : ℕ → ℕ → ℕ) : ℕ → ℕ → ℕ :=
  fun a b => if a = i ∧ b = j then m a b + 1 else m a b

/-- Total mass of the `(nc+1) × (nc+1)` confusion matrix. -/
def sumMatrix (nc : ℕ) (m : ℕ → ℕ → ℕ) : ℕ :=
  ∑ i ∈ Finset.range (nc + 1), ∑ j ∈ Finset.range (nc + 1), m i j

/-- `detections[detections[:, 4] > self.conf]`. -/
def cmFiltered (confTh : ℚ) (detections : List Row) : List Row :=
  detections.filter (fun r => r.getD 4 0 > confTh)

/-- `labels[:, 0].int()`. -/
def cmGtCls (labels : List Row) : List ℕ :=
  labels.map (fun r => toIdx (r.getD 0 0))

/-- `detections[:, 5].int()`. -/
def cmDetCls (dets : List Row) : List ℕ :=
  dets.map (fun r => toIdx (r.getD 5 0))

/-- Body of the per-ground-truth loop: a label matched by exactly one row of
`ms` is credited at `matrix[gc, detection_classes[m1[j]]]`, otherwise
`matrix[nc, gc]` (missed label, background row). `p = (i, gc)`. -/
def labelStep (ms : List MatchT) (detCls : List ℕ) (nc : ℕ)
    (mat : ℕ → ℕ → ℕ) (p : ℕ × ℕ) : ℕ → ℕ → ℕ :=
  let js := ms.filter (fun m => m.1 == p.1)
  if ¬ ms.isEmpty ∧ js.length = 1 then
    bump p.2 (detCls.getD js.headI.2.1 0) mat
  else bump nc p.2 mat

/-- Body of the per-detection loop (only run when at least one match exists):
a detection claimed by no match is charged at `matrix[dc, nc]`. `p = (i, dc)`. -/
def detStep (ms : List MatchT) (nc : ℕ) (mat : ℕ → ℕ → ℕ) (p : ℕ × ℕ) :
    ℕ → ℕ → ℕ :=
  if ms.any (fun m => m.2.1 == p.1) then mat else bump p.2 nc mat

/-- Number of above-cutoff detections claimed by no match. -/
def unclaimedCount (ms : List MatchT) (detCls : List ℕ) : ℕ :=
  detCls.enum.countP (fun p => ! ms.any (fun m => m.2.1 == p.1))

/-- `ConfusionMatrix.process_batch`: confidence filter, matching, the
per-label loop, and — only when at least one match exists — the
per-detection background loop. -/
def processBatchCM (iouFn : IouFn) (nc : ℕ) (confTh iouTh : ℚ)
    (mat : ℕ → ℕ → ℕ) (detections labels : List Row) : ℕ → ℕ → ℕ :=
  let dets := cmFiltered confTh detections
  let ms := cmMatches iouFn iouTh labels dets
  let mat1 := (cmGtCls labels).enum.foldl (labelStep ms (cmDetCls dets) nc) mat
  if ms.isEmpty then mat1
  else (cmDetCls dets).enum.foldl (detStep ms nc) mat1

/-
Sensitivity engine (`OD_AUCROC`): malignant relabeling, matching without the
dedup passes (they are commented out in the source), the three accumulators,
and the FROC transform.
-/

/-- `self.class_modifier` (the constructor always takes the `nc == 1` path,
the multi-class branch is commented out in the source). -/
def classModifier : ℕ := 1

/-- `mal_detections = detections[detections[:, 5] >= malignant_cls_th]`
followed by `mal_detections[:, 5] = 0` (the mask indexing copies, so the
write lands on the copy). -/
def odMalDets (malTh : ℚ) (detections : List Row) : List Row :=
  (detections.filter (fun r => r.getD 5 0 ≥ malTh)).map (fun r => r.set 5 0)

/-- `mal_labels = labels[labels[:, 0] >= malignant_cls_th]` followed by
`mal_labels[:, 0] = 0`. -/
def odMalLabels (malTh : ℚ) (labels : List Row) : List Row :=
  (labels.filter (fun r => r.getD 0 0 ≥ malTh)).map (fun r => r.set 0 0)

/-- The match construction of `OD_AUCROC.process_batch`: the candidate pairs
above the threshold are used as-is — the two sort/unique dedup passes are
commented out in the source. -/
def odMatches (iouFn : IouFn) (iouTh : ℚ) (malLabels malDets : List Row) :
    List MatchT :=
  let c := iouCandidates iouFn iouTh malLabels malDets
  if c.isEmpty then [] else c

/-- Accumulator state of `OD_AUCROC`: the markers-in-normal-image list and the
three (score, label) pair streams fed to the `torchmetrics.ROC` objects. -/
structure ODState where
  markers : List (List ℚ)
  rocLesion : List (ℚ × ℚ)
  rocImage : List (ℚ × ℚ)
  rocImageNoloc : List (ℚ × ℚ)

/-- Body of the per-ground-truth loop of `OD_AUCROC.process_batch`: a label
with at least one same-class match is credited with the best matching score
(also folded into the running image-best score); otherwise the lesion
accumulator records a hard `(0, gc)` pair. `acc = (lesion pairs, image best)`,
`p = (i, gc)`. -/
def odLesionStep (ms : List MatchT) (detCls : List ℕ) (probs : List ℚ)
    (acc : List (ℚ × ℚ) × ℚ) (p : ℕ × ℕ) : List (ℚ × ℚ) × ℚ :=
  let js := ms.filter (fun m => m.1 == p.1)
  if ¬ ms.isEmpty ∧ 0 < js.length ∧
      js.any (fun m => detCls.getD m.2.1 0 == p.2) then
    (acc.1 ++
        [(js.foldl (fun b m =>
            if detCls.getD m.2.1 0 == p.2 then max b (probs.getD m.2.1 0) else b) 0,
          (p.2 : ℚ))],
      max acc.2
        (js.foldl (fun b m =>
          if detCls.getD m.2.1 0 == p.2 then max b (probs.getD m.2.1 0) else b) 0))
  else (acc.1 ++ [(0, (p.2 : ℚ))], acc.2)

/-- `OD_AUCROC.process_batch`: malignant relabeling on mask copies, the four
(no detections / no labels) branch combinations, matching without dedup, and
the lesion / image / image-non-localized accumulator updates. -/
def odProcessBatch (iouFn : IouFn) (malTh iouTh : ℚ) (st : ODState)
    (detections labels : List Row) : ODState :=
  let malDets := odMalDets malTh detections
  let malLabels := odMalLabels malTh labels
  let probs := malDets.map (fun r => r.getD 4 0)
  let nl := malLabels.length
  if malDets.isEmpty then
    if nl = 0 then
      { st with
        markers := st.markers ++ [probs]
        rocLesion := st.rocLesion ++ [(0, 0)]
        rocImage := st.rocImage ++ [(0, 0)]
        rocImageNoloc := st.rocImageNoloc ++ [(0, 0)] }
    else
      { st with
        rocLesion := st.rocLesion ++ List.replicate nl (0, 1)
        rocImage := st.rocImage ++ [(0, 1)]
        rocImageNoloc := st.rocImageNoloc ++ [(0, 1)] }
  else if nl = 0 then
    { st with
      markers := st.markers ++ [probs]
      rocLesion := st.rocLesion ++ [(torchMax probs, 0)]
      rocImage := st.rocImage ++ [(torchMax probs, 0)]
      rocImageNoloc := st.rocImageNoloc ++ [(torchMax probs, 0)] }
  else
    let detCls := malDets.map (fun r => toIdx (r.getD 5 0) + classModifier)
    let ms := odMatches iouFn iouTh malLabels malDets
    let res := (malLabels.map (fun r => toIdx (r.getD 0 0) + classModifier)).enum.foldl
      (odLesionStep ms detCls probs) ([], 0)
    { st with
      rocImageNoloc := st.rocImageNoloc ++ [(torchMax probs, 1)]
      rocLesion := st.rocLesion ++ res.1
      rocImage := st.rocImage ++ [(res.2, 1)] }

/-- `OD_AUCROC.froc_curve`: per threshold, `torch.cat` of the recorded marker
tensors (raises — modelled `none` — when the list is empty, i.e. when zero
negative images were seen), count of markers strictly above the threshold
divided by the number of negative images; `torch.stack` of the per-threshold
results (raises when there are no thresholds). -/
def frocCurve (markers : List (List ℚ)) (tpr thresholds : List ℚ) :
    Option (List ℚ × List ℚ) :=
  if thresholds.isEmpty then none
  else if markers.isEmpty then none
  else some (tpr, thresholds.map (fun t =>
    ((markers.flatten.countP (fun s => s > t) : ℕ) : ℚ) / (markers.length : ℚ)))

/-
Frame model for the malignant relabeling (claim C10). Tensor storage is made
explicit: a store of 2-d arrays addressed by cell id. PyTorch boolean-mask
(advanced) indexing allocates a fresh cell holding a copy of the selected
rows; an in-place column write `t[:, c] = v` mutates the storage cell of the
tensor it is applied to. A view would instead share the cell, and the write
would reach the caller's data — the theorem below shows it does not.
-/

/-- Explicit tensor storage: cell id ↦ 2-d array. -/
abbrev Store := List (List Row)

/-- Boolean-mask indexing `t[mask]`: allocates a fresh cell with the selected
rows (PyTorch advanced indexing returns a copy); returns the new store and
the id of the fresh cell. -/
def boolMaskRows (s : Store) (t : ℕ) (pred : Row → Bool) : Store × ℕ :=
  (s ++ [(s.getD t []).filter pred], s.length)

/-- In-place column write `t[:, c] = v`: mutates the storage cell of `t`. -/
def setColStore (s : Store) (t : ℕ) (c : ℕ) (v : ℚ) : Store :=
  s.set t ((s.getD t []).map (fun r => r.set c v))

/-- Lines 241–244 of `OD_AUCROC.process_batch` over the explicit store: the
caller's detections live in cell 0 and labels in cell 1; the two mask
selections allocate `mal_detections` / `mal_labels`, and the two class-column
writes are applied to those tensors. -/
def odRelabelStore (detections labels : List Row) (malTh : ℚ) :
    Store × ℕ × ℕ :=
  let s0 : Store := [detections, labels]
  let p1 := boolMaskRows s0 0 (fun r => r.getD 5 0 ≥ malTh)
  let p2 := boolMaskRows p1.1 1 (fun r => r.getD 0 0 ≥ malTh)
  let s3 := setColStore p2.1 p1.2 5 0
  let s4 := setColStore s3 p2.2 0 0
  (s4, p1.2, p2.2)

/-
Rendering failures (claim C8). The renderer is an external collaborator; its
outcome is a parameter (`Except.error` when the plotting call raises, with a
numeric error code standing for the exception). `ap_per_class` calls the
plotting functions unguarded between computing `f1` and selecting the
operating point, so a raise aborts the call; `ConfusionMatrix.plot` wraps its
whole body in `try ... except Exception: pass`.
-/

/-- `ConfusionMatrix.plot`: the entire body runs inside
`try ... except Exception: pass`, so any rendering outcome yields a normal
return. -/
def confusionMatrixPlot (render : Except ℕ Unit) : Except ℕ Unit :=
  match render with
  | Except.ok _ => Except.ok ()
  | Except.error _ => Except.ok ()

/-
AP engine (`ap_per_class`).
-/

/-- `np.argsort(-conf)`: the index permutation sorting by descending
confidence, a function of the confidence array alone. -/
def argsortDesc (conf : List ℚ) : List ℕ :=
  (List.insertionSort (fun a b : ℕ × ℚ => b.2 ≤ a.2) conf.enum).map
    (fun p => p.1)

/-- `np.unique`: sorted distinct values. -/
def uniqueSorted (l : List ℚ) : List ℚ :=
  List.insertionSort (· ≤ ·) l.dedup

/-- The body of the per-class loop of `ap_per_class`, over the
confidence-sorted arrays: boolean mask `pred_cls == c`, label/prediction
counts, cumulated FP/TP, recall and precision matrices, the two 1000-point
interpolated curves (both read column 0), and the per-threshold-column AP.
Returns `(r row, p row, ap row)`; a class with no predictions or no labels
keeps its zero rows. -/
def perClassCurves (tpS : List Row) (confS pcS targetCls : List ℚ)
    (nT : ℕ) (c : ℚ) : List ℚ × List ℚ × List ℚ :=
  let maskIdx := (List.range pcS.length).filter (fun k => pcS.getD k 0 == c)
  let nl := targetCls.countP (fun t => t == c)
  if maskIdx.length = 0 ∨ nl = 0 then
    (List.replicate 1000 0, List.replicate 1000 0, List.replicate nT 0)
  else
    let tpSel := maskIdx.map (fun k => tpS.getD k [])
    let confSel := maskIdx.map (fun k => confS.getD k 0)
    let fpc := cumsumAxis0 (tpSel.map (fun r => r.map (fun v => 1 - v)))
    let tpc := cumsumAxis0 tpSel
    let recallM := tpc.map (fun r => r.map (fun v => v / ((nl : ℚ) + epsQ)))
    let precisionM :=
      List.zipWith (fun tr fr => List.zipWith (fun t f => t / (t + f)) tr fr)
        tpc fpc
    (pxGrid.map (fun x =>
        npInterp (-x) (confSel.map (fun v => -v)) (getCol 0 recallM) (some 0)),
      pxGrid.map (fun x =>
        npInterp (-x) (confSel.map (fun v => -v)) (getCol 0 precisionM) (some 1)),
      (List.range nT).map (fun j =>
        (computeAp (getCol j recallM) (getCol j precisionM)).1))

/-- Result record of `ap_per_class`: `p[:, i], r[:, i], ap, f1[:, i],
unique_classes`. -/
structure APResult where
  p : List ℚ
  r : List ℚ
  ap : List (List ℚ)
  f1 : List ℚ
  classes : List ℚ

/-- `ap_per_class` (numeric pipeline): global sort by descending confidence,
per-class curves and AP, the F1 grid, and the shared operating point at the
grid index maximizing mean-over-classes F1. -/
def apPerClass (tp : List Row) (conf predCls targetCls : List ℚ) : APResult :=
  let ord := argsortDesc conf
  let tpS := ord.map (fun k => tp.getD k [])
  let confS := ord.map (fun k => conf.getD k 0)
  let pcS := ord.map (fun k => predCls.getD k 0)
  let uc := uniqueSorted targetCls
  let rows := uc.map (fun c =>
    perClassCurves tpS confS pcS targetCls tp.headI.length c)
  let rMat := rows.map (fun t => t.1)
  let pMat := rows.map (fun t => t.2.1)
  let f1Mat :=
    List.zipWith (fun prow rrow =>
        List.zipWith (fun a b => 2 * a * b / (a + b + epsQ)) prow rrow)
      pMat rMat
  let i := argmaxIdx ((List.range 1000).map (fun k =>
    (f1Mat.map (fun row => row.getD k 0)).sum / (uc.length : ℚ)))
  { p := pMat.map (fun row => row.getD i 0)
    r := rMat.map (fun row => row.getD i 0)
    ap := rows.map (fun t => t.2.2)
    f1 := f1Mat.map (fun row => row.getD i 0)
    classes := uc }

/-- `ap_per_class` with its plotting stage made explicit: when `plot` is set,
the unguarded rendering calls run after the numeric pipeline but before the
function returns, so a raise aborts the call and no results are returned. -/
def apPerClassChecked (render : Except ℕ Unit) (plot : Bool)
    (tp : List Row) (conf predCls targetCls : List ℚ) : Except ℕ APResult :=
  if plot then render.map (fun _ => apPerClass tp conf predCls targetCls)
  else Except.ok (apPerClass tp conf predCls targetCls)

theorem maxAccumAux_le_of_mem {c b : ℚ} (hc : c ≤ b) :
    ∀ {xs : List ℚ}, (∀ x ∈ xs, x ≤ b) → ∀ y ∈ maxAccumAux c xs, y ≤ b := by
  intro xs
  induction xs generalizing c with
  | nil => intro _ y hy; simp [maxAccumAux] at hy
  | cons x xs ih =>
    intro hxs y hy
    simp only [maxAccumAux, List.mem_cons] at hy
    rcases hy with h | h
    · subst h
      exact max_le hc (hxs x (by simp))
    · exact ih (max_le hc (hxs x (by simp)))
        (fun z hz => hxs z (by simp [hz])) y h

theorem le_maxAccumAux {c : ℚ} :
    ∀ {xs : List ℚ}, ∀ y ∈ maxAccumAux c xs, c ≤ y := by
  intro xs
  induction xs generalizing c with
  | nil => intro y hy; simp [maxAccumAux] at hy
  | cons x xs ih =>
    intro y hy
    simp only [maxAccumAux, List.mem_cons] at hy
    rcases hy with h | h
    · subst h; exact le_max_left _ _
    · exact le_trans (le_max_left _ _) (ih y h)

theorem pairwise_maxAccumAux (c : ℚ) :
    ∀ (xs : List ℚ), List.Pairwise (· ≤ ·) (maxAccumAux c xs) := by
  intro xs
  induction xs generalizing c with
  | nil => simp [maxAccumAux]
  | cons x xs ih =>
    simp only [maxAccumAux]
    exact List.Pairwise.cons (fun y hy => le_maxAccumAux y hy) (ih (max c x))

theorem pairwise_maxAccumulate (l : List ℚ) :
    List.Pairwise (· ≤ ·) (maxAccumulate l) := by
  cases l with
  | nil => simp [maxAccumulate]
  | cons x xs =>
    simp only [maxAccumulate]
    exact List.Pairwise.cons (fun y hy => le_maxAccumAux y hy)
      (pairwise_maxAccumAux x xs)

theorem maxAccumAux_getLastD (c : ℚ) :
    ∀ (xs : List ℚ), (maxAccumAux c xs).getLastD c = xs.foldl max c := by
  intro xs
  induction xs generalizing c with
  | nil => simp [maxAccumAux]
  | cons x xs ih =>
    show (max c x :: maxAccumAux (max c x) xs).getLastD c = _
    rw [List.getLastD_cons, ih]
    simp [List.foldl_cons]

theorem getLast?_cons_getLastD (a : ℚ) (l : List ℚ) :
    (a :: l).getLast? = some (l.getLastD a) := by
  induction l generalizing a with
  | nil => rfl
  | cons x xs ih => simp [List.getLast?_cons_cons, ih, List.getLastD_cons]

theorem foldl_max_le {b : ℚ} :
    ∀ {l : List ℚ} {c : ℚ}, c ≤ b → (∀ x ∈ l, x ≤ b) → l.foldl max c ≤ b := by
  intro l
  induction l with
  | nil => intro c hc _; simpa using hc
  | cons x xs ih =>
    intro c hc hl
    simp only [List.foldl_cons]
    exact ih (max_le hc (hl x (by simp))) (fun z hz => hl z (by simp [hz]))

theorem le_foldl_max : ∀ (l : List ℚ) (c : ℚ), c ≤ l.foldl max c := by
  intro l
  induction l with
  | nil => intro c; simp
  | cons x xs ih =>
    intro c
    simp only [List.foldl_cons]
    exact le_trans (le_max_left _ _) (ih (max c x))

theorem apMpre_reverse (ps : List ℚ) :
    (apMpre ps).reverse = 0 :: (ps.reverse ++ [1]) := by
  simp [apMpre]

theorem apEnvelope_head_eq_one (ps : List ℚ) (hp : ∀ p ∈ ps, p ≤ 1) :
    (apEnvelope ps).head? = some 1 := by
  rw [apEnvelope, List.head?_reverse, apMpre_reverse]
  show (0 :: maxAccumAux 0 (ps.reverse ++ [1])).getLast? = some 1
  rw [getLast?_cons_getLastD, maxAccumAux_getLastD]
  have h1 : (ps.reverse ++ [1]).foldl max 0 = max (ps.reverse.foldl max 0) 1 := by
    rw [List.foldl_append]; simp
  have h2 : ps.reverse.foldl max 0 ≤ 1 :=
    foldl_max_le (by norm_num) (fun x hx => hp x (List.mem_reverse.mp hx))
  rw [h1, max_eq_right h2]

theorem apEnvelope_getLast_eq_zero (ps : List ℚ) :
    (apEnvelope ps).getLast? = some 0 := by
  rw [apEnvelope, List.getLast?_reverse, apMpre_reverse]
  rfl

/-- Claim C7: for non-empty recall and precision values at most 1, the
envelope array `mpre` returned by `compute_ap` is exactly `1` at its first
point (the prepended recall-0 sentinel) and exactly `0` at its last point
(the appended `recall[-1] + 0.01` sentinel). -/
theorem computeAp_sentinel_values (recl prec : List ℚ)
    (_hr : recl ≠ []) (hp : ∀ p ∈ prec, p ≤ 1) :
    ((computeAp recl prec).2.1).head? = some 1 ∧
      ((computeAp recl prec).2.1).getLast? = some 0 := by
  have h : (computeAp recl prec).2.1 = apEnvelope prec := rfl
  rw [h]
  exact ⟨apEnvelope_head_eq_one prec hp, apEnvelope_getLast_eq_zero prec⟩

/-- Witness for C7 at `recall = [1]`, `precision = [1, 0]`. -/
theorem computeAp_sentinel_values_witness :
    [(1 : ℚ)] ≠ [] ∧ (∀ p ∈ [(1 : ℚ), 0], p ≤ 1) ∧
      ((computeAp [(1 : ℚ)] [(1 : ℚ), 0]).2.1).head? = some 1 ∧
      ((computeAp [(1 : ℚ)] [(1 : ℚ), 0]).2.1).getLast? = some 0 :=
  ⟨by decide, by decide, computeAp_sentinel_values [1] [1, 0] (by decide) (by decide)⟩

/-- Claim C5 counterexample: for `recall = [1]`, `precision = [0]`, the point
of the returned envelope at lower recall (`mrec[0] = 0 < mrec[1] = 1`) has
precision `1`, which is NOT less than or equal to the precision `0` at the
higher-recall point: the envelope decreases, not increases, with recall. -/
theorem apEnvelope_not_le_at_lower_recall :
    (apMrec [1]).getD 0 0 < (apMrec [1]).getD 1 0 ∧
      ¬ ((apEnvelope [0]).getD 0 0 ≤ (apEnvelope [0]).getD 1 0) := by
  constructor
  · decide
  · decide

/-- Claim C5 amended: the precision envelope computed inside `compute_ap` is
non-increasing along the padded array, i.e. in the direction of increasing
recall: for positions `k ≤ l` of the envelope, the value at `l` (higher
recall) is at most the value at `k` (lower recall). -/
theorem apEnvelope_antitone (ps : List ℚ) (k l : ℕ) (hkl : k ≤ l)
    (hl : l < (apEnvelope ps).length) :
    (apEnvelope ps).getD l 0 ≤ (apEnvelope ps).getD k 0 := by
  have hpw : List.Pairwise (fun a b : ℚ => b ≤ a) (apEnvelope ps) := by
    rw [apEnvelope]
    exact (List.pairwise_reverse).mpr (pairwise_maxAccumulate _)
  rcases Nat.eq_or_lt_of_le hkl with h | h
  · subst h; exact le_refl _
  · have hk : k < (apEnvelope ps).length := lt_trans h hl
    rw [List.getD_eq_getElem _ _ hl, List.getD_eq_getElem _ _ hk]
    exact List.pairwise_iff_get.mp hpw ⟨k, hk⟩ ⟨l, hl⟩ h

/-- Witness for the amended C5 at `precision = [0]`, positions `0 ≤ 1`. -/
theorem apEnvelope_antitone_witness :
    (0 : ℕ) ≤ 1 ∧ 1 < (apEnvelope [0]).length ∧
      (apEnvelope [0]).getD 1 0 ≤ (apEnvelope [0]).getD 0 0 :=
  ⟨by decide, by decide, apEnvelope_antitone [0] 0 1 (by decide) (by decide)⟩

theorem mem_iouCandidates {iouFn : IouFn} {iouTh : ℚ} {labels dets : List Row}
    {m : MatchT} (h : m ∈ iouCandidates iouFn iouTh labels dets) :
    m.1 < labels.length ∧ m.2.1 < dets.length ∧
      m.2.2 = iouFn ((labels.getD m.1 []).drop 1) ((dets.getD m.2.1 []).take 4) ∧
      iouTh < m.2.2 := by
  simp only [iouCandidates, List.mem_flatMap, List.mem_filterMap,
    List.mem_range] at h
  obtain ⟨i, hi, j, hj, hok⟩ := h
  by_cases hc : iouFn ((labels.getD i []).drop 1) ((dets.getD j []).take 4) > iouTh
  · rw [if_pos hc] at hok
    injection hok with h2
    subst h2
    exact ⟨hi, hj, rfl, hc⟩
  · rw [if_neg hc] at hok
    cases hok

theorem iouCandidates_eq_nil {iouFn : IouFn} {iouTh : ℚ} {labels dets : List Row}
    (h : ∀ i j, i < labels.length → j < dets.length →
      iouFn ((labels.getD i []).drop 1) ((dets.getD j []).take 4) ≤ iouTh) :
    iouCandidates iouFn iouTh labels dets = [] := by
  rw [List.eq_nil_iff_forall_not_mem]
  intro m hm
  have hs := mem_iouCandidates hm
  have := h m.1 m.2.1 hs.1 hs.2.1
  rw [← hs.2.2.1] at this
  exact absurd hs.2.2.2 (not_lt.mpr this)

theorem mem_sortIouDesc {ms : List MatchT} {m : MatchT} :
    m ∈ sortIouDesc ms ↔ m ∈ ms :=
  (List.perm_insertionSort _ ms).mem_iff

theorem mem_of_mem_uniqueByKey {key : MatchT → ℕ} {ms : List MatchT}
    {m : MatchT} (h : m ∈ uniqueByKey key ms) : m ∈ ms := by
  simp only [uniqueByKey, List.mem_filterMap] at h
  obtain ⟨k, _, hf⟩ := h
  exact List.mem_of_find?_eq_some hf

theorem cmMatches_subset {iouFn : IouFn} {iouTh : ℚ} {labels dets : List Row}
    {m : MatchT} (h : m ∈ cmMatches iouFn iouTh labels dets) :
    m ∈ iouCandidates iouFn iouTh labels dets := by
  simp only [cmMatches] at h
  split at h
  · simp at h
  · split at h
    · exact mem_sortIouDesc.mp
        (mem_of_mem_uniqueByKey (mem_sortIouDesc.mp (mem_of_mem_uniqueByKey h)))
    · exact h

/-- Claim C6: in the per-image matching of `ConfusionMatrix.process_batch`,
every counted match carries the IoU of its (label, detection) pair and that
IoU strictly exceeds the threshold (so a pair whose IoU merely equals the
threshold is never matched); and if no pair exceeds the threshold the match
set is empty. -/
theorem cmMatches_iou_strict (iouFn : IouFn) (iouTh : ℚ) (labels dets : List Row) :
    (∀ m ∈ cmMatches iouFn iouTh labels dets,
        iouTh < m.2.2 ∧
          m.2.2 = iouFn ((labels.getD m.1 []).drop 1) ((dets.getD m.2.1 []).take 4)) ∧
      ((∀ i j, i < labels.length → j < dets.length →
          iouFn ((labels.getD i []).drop 1) ((dets.getD j []).take 4) ≤ iouTh) →
        cmMatches iouFn iouTh labels dets = []) := by
  constructor
  · intro m hm
    have hs := mem_iouCandidates (cmMatches_subset hm)
    exact ⟨hs.2.2.2, hs.2.2.1⟩
  · intro hall
    have hnil := iouCandidates_eq_nil hall
    simp [cmMatches, hnil]

/-- Witness for C6: one label box, one detection box, constant IoU `1`,
threshold `0`; the single match `(0, 0, 1)` satisfies both conclusions. -/
theorem cmMatches_iou_strict_witness :
    (0 : ℚ) < ((0, 0, (1 : ℚ)) : MatchT).2.2 ∧
      ((0, 0, (1 : ℚ)) : MatchT).2.2 =
        (fun _ _ => (1 : ℚ))
          (([[(0 : ℚ), 0, 0, 2, 2]].getD 0 []).drop 1)
          (([[(0 : ℚ), 0, 2, 2, 1, 0]].getD 0 []).take 4) :=
  (cmMatches_iou_strict (fun _ _ => 1) 0 [[0, 0, 0, 2, 2]]
    [[0, 0, 2, 2, 1, 0]]).1 (0, 0, 1) (by decide)

theorem sumMatrix_bump {nc i j : ℕ} (hi : i < nc + 1) (hj : j < nc + 1)
    (m : ℕ → ℕ → ℕ) : sumMatrix nc (bump i j m) = sumMatrix nc m + 1 := by
  have hbump : ∀ a b : ℕ, bump i j m a b
      = m a b + (if a = i then (if b = j then 1 else 0) else 0) := by
    intro a b
    by_cases ha : a = i <;> by_cases hb : b = j <;> simp [bump, ha, hb]
  simp only [sumMatrix, hbump, Finset.sum_add_distrib]
  congr 1
  have h1 : ∀ a : ℕ,
      (∑ b ∈ Finset.range (nc + 1), (if a = i then (if b = j then 1 else 0) else 0))
        = if a = i then 1 else 0 := by
    intro a
    by_cases ha : a = i
    · simp only [ha, if_true]
      rw [Finset.sum_ite_eq' (Finset.range (nc + 1)) j (fun _ => (1 : ℕ))]
      simp [Finset.mem_range.mpr hj]
    · simp [ha]
  rw [Finset.sum_congr rfl (fun a _ => h1 a),
    Finset.sum_ite_eq' (Finset.range (nc + 1)) i (fun _ => (1 : ℕ))]
  simp [Finset.mem_range.mpr hi]

theorem sumMatrix_foldl {nc : ℕ}
    (step : (ℕ → ℕ → ℕ) → (ℕ × ℕ) → (ℕ → ℕ → ℕ)) (w : ℕ × ℕ → ℕ) :
    ∀ (pairs : List (ℕ × ℕ)),
      (∀ p ∈ pairs, ∀ mat, sumMatrix nc (step mat p) = sumMatrix nc mat + w p) →
      ∀ mat, sumMatrix nc (pairs.foldl step mat)
        = sumMatrix nc mat + (pairs.map w).sum := by
  intro pairs
  induction pairs with
  | nil => intro _ mat; simp
  | cons p ps ih =>
    intro h mat
    simp only [List.foldl_cons, List.map_cons, List.sum_cons]
    rw [ih (fun q hq => h q (List.mem_cons_of_mem _ hq)) (step mat p),
      h p (List.mem_cons_self _ _)]
    omega

theorem headI_mem {l : List MatchT} (h : l ≠ []) : l.headI ∈ l := by
  cases l with
  | nil => exact absurd rfl h
  | cons x xs => exact List.mem_cons_self x xs

theorem sum_foldl_labelStep {nc : ℕ} (ms : List MatchT) (detCls : List ℕ)
    (pairs : List (ℕ × ℕ))
    (hmt : ∀ m ∈ ms, m.2.1 < detCls.length)
    (hdc : ∀ c ∈ detCls, c < nc)
    (hpp : ∀ p ∈ pairs, p.2 < nc) :
    ∀ mat, sumMatrix nc (pairs.foldl (labelStep ms detCls nc) mat)
      = sumMatrix nc mat + pairs.length := by
  intro mat
  have hstep : ∀ p ∈ pairs, ∀ mat2,
      sumMatrix nc (labelStep ms detCls nc mat2 p)
        = sumMatrix nc mat2 + 1 := by
    intro p hp mat2
    have hp2 : p.2 < nc + 1 := Nat.lt_succ_of_lt (hpp p hp)
    simp only [labelStep]
    split
    case isTrue h =>
      have hne : ms.filter (fun m => m.1 == p.1) ≠ [] := by
        intro hnil
        rw [hnil] at h
        simp at h
      have hmem : (ms.filter (fun m => m.1 == p.1)).headI ∈ ms :=
        List.mem_of_mem_filter (headI_mem hne)
      have hidx : (ms.filter (fun m => m.1 == p.1)).headI.2.1 < detCls.length :=
        hmt _ hmem
      have hdcv : detCls.getD (ms.filter (fun m => m.1 == p.1)).headI.2.1 0 < nc + 1 := by
        rw [List.getD_eq_getElem _ _ hidx]
        exact Nat.lt_succ_of_lt (hdc _ (List.getElem_mem hidx))
      exact sumMatrix_bump hp2 hdcv mat2
    case isFalse h =>
      exact sumMatrix_bump (Nat.lt_succ_self nc) hp2 mat2
  have := sumMatrix_foldl (labelStep ms detCls nc) (fun _ => 1) pairs hstep mat
  simpa using this

theorem sum_map_ite_countP (q : ℕ × ℕ → Bool) :
    ∀ (l : List (ℕ × ℕ)),
      (l.map (fun a => if q a then 0 else 1)).sum = l.countP (fun a => ! q a) := by
  intro l
  induction l with
  | nil => simp
  | cons x xs ih =>
    simp only [List.map_cons, List.sum_cons, List.countP_cons, ih]
    cases hq : q x <;> simp [hq, Nat.add_comm]

theorem sum_foldl_detStep {nc : ℕ} (ms : List MatchT)
    (pairs : List (ℕ × ℕ))
    (hpp : ∀ p ∈ pairs, p.2 < nc) :
    ∀ mat, sumMatrix nc (pairs.foldl (detStep ms nc) mat)
      = sumMatrix nc mat
        + pairs.countP (fun p => ! ms.any (fun m => m.2.1 == p.1)) := by
  intro mat
  have hstep : ∀ p ∈ pairs, ∀ mat2,
      sumMatrix nc (detStep ms nc mat2 p)
        = sumMatrix nc mat2
          + (if ms.any (fun m => m.2.1 == p.1) then 0 else 1) := by
    intro p hp mat2
    simp only [detStep]
    split
    case isTrue h => simp [h]
    case isFalse h =>
      rw [sumMatrix_bump (Nat.lt_succ_of_lt (hpp p hp)) (Nat.lt_succ_self nc) mat2]
  have := sumMatrix_foldl (detStep ms nc)
    (fun p => if ms.any (fun m => m.2.1 == p.1) then 0 else 1) pairs hstep mat
  rw [this, sum_map_ite_countP]

/-- Claim C2 amended: one `ConfusionMatrix.process_batch` call adds exactly
`labels.length` counts through the per-label loop, plus — only when at least
one candidate pair survived the IoU threshold — one count per above-cutoff
detection claimed by no match. When zero candidate pairs survive, the
per-detection loop is skipped (`if n:` in the source) and unclaimed
detections are NOT charged to the background column. -/
theorem processBatchCM_total_added (iouFn : IouFn) (nc : ℕ) (confTh iouTh : ℚ)
    (mat : ℕ → ℕ → ℕ) (detections labels : List Row)
    (hl : ∀ r ∈ labels, toIdx (r.getD 0 0) < nc)
    (hd : ∀ r ∈ detections, toIdx (r.getD 5 0) < nc) :
    sumMatrix nc (processBatchCM iouFn nc confTh iouTh mat detections labels)
      = sumMatrix nc mat + labels.length
        + (if (cmMatches iouFn iouTh labels (cmFiltered confTh detections)).isEmpty
           then 0
           else unclaimedCount
                  (cmMatches iouFn iouTh labels (cmFiltered confTh detections))
                  (cmDetCls (cmFiltered confTh detections))) := by
  have hdc : ∀ c ∈ cmDetCls (cmFiltered confTh detections), c < nc := by
    intro c hc
    simp only [cmDetCls, List.mem_map] at hc
    obtain ⟨r, hr, rfl⟩ := hc
    exact hd r (List.mem_of_mem_filter hr)
  have hmt : ∀ m ∈ cmMatches iouFn iouTh labels (cmFiltered confTh detections),
      m.2.1 < (cmDetCls (cmFiltered confTh detections)).length := by
    intro m hm
    have h1 := (mem_iouCandidates (cmMatches_subset hm)).2.1
    simpa [cmDetCls] using h1
  have hgt : ∀ p ∈ (cmGtCls labels).enum, p.2 < nc := by
    intro p hp
    obtain ⟨i, x⟩ := p
    obtain ⟨hi, hx⟩ := List.mem_enum hp
    have hmem : (cmGtCls labels)[i] ∈ cmGtCls labels := List.getElem_mem hi
    simp only [cmGtCls, List.mem_map] at hmem
    obtain ⟨r, hr, heq⟩ := hmem
    show x < nc
    rw [hx]
    simp only [cmGtCls]
    rw [← heq]
    exact hl r hr
  have hdd : ∀ p ∈ (cmDetCls (cmFiltered confTh detections)).enum, p.2 < nc := by
    intro p hp
    obtain ⟨i, x⟩ := p
    obtain ⟨hi, hx⟩ := List.mem_enum hp
    show x < nc
    rw [hx]
    exact hdc _ (List.getElem_mem hi)
  simp only [processBatchCM]
  split
  case isTrue h =>
    rw [sum_foldl_labelStep _ _ _ hmt hdc hgt mat]
    simp [cmGtCls, List.enum_length]
  case isFalse h =>
    rw [sum_foldl_detStep _ _ hdd,
      sum_foldl_labelStep _ _ _ hmt hdc hgt mat]
    simp only [unclaimedCount, List.enum_length, cmGtCls, List.length_map]

/-- Claim C2 counterexample: one above-cutoff detection, one label, zero IoU
everywhere, so zero candidate pairs survive. The call adds only `1` (the
missed label), while ground-truth count plus unclaimed detections is `2`:
the unclaimed detection is never charged to the background column. -/
theorem processBatchCM_total_counterexample :
    sumMatrix 1 (processBatchCM (fun _ _ => 0) 1 0 0 (fun _ _ => 0)
        [[0, 0, 1, 1, 1, 0]] [[0, 0, 0, 1, 1]]) = 1 ∧
      ([[(0 : ℚ), 0, 0, 1, 1]] : List Row).length
          + unclaimedCount
              (cmMatches (fun _ _ => 0) 0 [[(0 : ℚ), 0, 0, 1, 1]]
                (cmFiltered 0 [[(0 : ℚ), 0, 1, 1, 1, 0]]))
              (cmDetCls (cmFiltered 0 [[(0 : ℚ), 0, 1, 1, 1, 0]])) = 2 ∧
      (1 : ℕ) ≠ 2 :=
  ⟨by decide, by decide, by decide⟩

/-- Witness for the amended C2: constant IoU `1`, one detection matched to the
one label; the call adds `1 + 0` over a zero matrix. -/
theorem processBatchCM_total_added_witness :
    (∀ r ∈ ([[(0 : ℚ), 0, 0, 1, 1]] : List Row), toIdx (r.getD 0 0) < 1) ∧
      (∀ r ∈ ([[(0 : ℚ), 0, 1, 1, 1, 0]] : List Row), toIdx (r.getD 5 0) < 1) ∧
      sumMatrix 1 (processBatchCM (fun _ _ => 1) 1 0 0 (fun _ _ => 0)
          [[0, 0, 1, 1, 1, 0]] [[0, 0, 0, 1, 1]])
        = sumMatrix 1 (fun _ _ => 0) + ([[(0 : ℚ), 0, 0, 1, 1]] : List Row).length
          + (if (cmMatches (fun _ _ => 1) 0 [[(0 : ℚ), 0, 0, 1, 1]]
                  (cmFiltered 0 [[(0 : ℚ), 0, 1, 1, 1, 0]])).isEmpty
             then 0
             else unclaimedCount
                    (cmMatches (fun _ _ => 1) 0 [[(0 : ℚ), 0, 0, 1, 1]]
                      (cmFiltered 0 [[(0 : ℚ), 0, 1, 1, 1, 0]]))
                    (cmDetCls (cmFiltered 0 [[(0 : ℚ), 0, 1, 1, 1, 0]]))) :=
  ⟨by decide, by decide,
    processBatchCM_total_added (fun _ _ => 1) 1 0 0 (fun _ _ => 0)
      [[0, 0, 1, 1, 1, 0]] [[0, 0, 0, 1, 1]] (by decide) (by decide)⟩

/-- Claim C4 (code bug): called with zero recorded negative images (empty
markers list) and a non-empty threshold list, `froc_curve` fails —
`torch.cat` on the empty marker list raises — rather than returning a
well-defined FROC result. -/
theorem frocCurve_zero_negative_images : frocCurve [] [1] [0] = none := by
  rfl

/-- Claim C1 amended: in `OD_AUCROC.process_batch` the two-pass greedy dedup
of §4.1 is commented out; the match list used for scoring is exactly the raw
candidate list of all pairs above the IoU threshold, so a ground-truth index
or detection index may appear in several matches. -/
theorem odMatches_no_dedup (iouFn : IouFn) (iouTh : ℚ)
    (malLabels malDets : List Row) :
    odMatches iouFn iouTh malLabels malDets
      = iouCandidates iouFn iouTh malLabels malDets := by
  simp only [odMatches]
  split
  case isTrue h => exact (List.isEmpty_iff.mp h).symm
  case isFalse h => rfl

/-- Claim C1 counterexample: two identical malignant labels and one
overlapping detection (constant IoU `1 > 0`). Detection index `0` appears in
two matches, and the lesion accumulator credits both labels from that single
detection (score `5` twice). -/
theorem odMatches_counterexample :
    ¬ ((odMatches (fun _ _ => (1 : ℚ)) 0
          (odMalLabels 0 [[0, 0, 0, 2, 2], [0, 0, 0, 2, 2]])
          (odMalDets 0 [[0, 0, 2, 2, 5, 0]])).countP
            (fun m => m.2.1 == 0) ≤ 1) ∧
      (odProcessBatch (fun _ _ => 1) 0 0 ⟨[], [], [], []⟩
          [[0, 0, 2, 2, 5, 0]] [[0, 0, 0, 2, 2], [0, 0, 0, 2, 2]]).rocLesion
        = [(5, 1), (5, 1)] :=
  ⟨by decide, by decide⟩

/-- Claim C3 amended: for an image with at least one malignant detection and
no malignant labels, `OD_AUCROC.process_batch` appends the FULL list of
malignant detection scores (not just the maximum) as that image's entry in
the markers-in-normal-image list; `froc_curve` therefore counts every
recorded score above the threshold, so one negative image can contribute
more than one false marker. -/
theorem odProcessBatch_markers_negative (iouFn : IouFn) (malTh iouTh : ℚ)
    (st : ODState) (detections labels : List Row)
    (hd : odMalDets malTh detections ≠ [])
    (hl : odMalLabels malTh labels = []) :
    (odProcessBatch iouFn malTh iouTh st detections labels).markers
      = st.markers ++ [(odMalDets malTh detections).map (fun r => r.getD 4 0)] := by
  have h1 : ¬ ((odMalDets malTh detections).isEmpty = true) := by
    simp [List.isEmpty_iff, hd]
  have h2 : (odMalLabels malTh labels).length = 0 := by simp [hl]
  simp only [odProcessBatch]
  rw [if_neg h1, if_pos h2]

/-- Witness for the amended C3: one single-detection negative image. -/
theorem odProcessBatch_markers_negative_witness :
    odMalDets 0 [[0, 0, 1, 1, 2, 0]] ≠ [] ∧
      odMalLabels 0 ([] : List Row) = [] ∧
      (odProcessBatch (fun _ _ => 1) 0 0 ⟨[], [], [], []⟩
          [[0, 0, 1, 1, 2, 0]] []).markers
        = (⟨[], [], [], []⟩ : ODState).markers
            ++ [(odMalDets 0 [[0, 0, 1, 1, 2, 0]]).map (fun r => r.getD 4 0)] :=
  ⟨by decide, by decide,
    odProcessBatch_markers_negative (fun _ _ => 1) 0 0 ⟨[], [], [], []⟩
      [[0, 0, 1, 1, 2, 0]] [] (by decide) (by decide)⟩

/-- Claim C3 counterexample: a negative image with two malignant detections
of scores `3` and `7` records the marker entry `[3, 7]` — both scores — and
not the single maximum `[7]` the claim asserts. -/
theorem odProcessBatch_markers_counterexample :
    (odProcessBatch (fun _ _ => 1) 0 0 ⟨[], [], [], []⟩
        [[0, 0, 1, 1, 3, 0], [0, 0, 1, 1, 7, 0]] []).markers = [[3, 7]] ∧
      (odProcessBatch (fun _ _ => 1) 0 0 ⟨[], [], [], []⟩
          [[0, 0, 1, 1, 3, 0], [0, 0, 1, 1, 7, 0]] []).markers ≠ [[7]] :=
  ⟨by decide, by decide⟩

/-- Claim C10: after the malignant relabeling of `OD_AUCROC.process_batch`,
the caller's detections and labels cells are unchanged — the zero-writes to
the class columns landed on the boolean-mask copies, which hold exactly the
filtered-and-zeroed rows used downstream (`odMalDets` / `odMalLabels`). -/
theorem odRelabelStore_frame (detections labels : List Row) (malTh : ℚ) :
    ((odRelabelStore detections labels malTh).1).getD 0 [] = detections ∧
      ((odRelabelStore detections labels malTh).1).getD 1 [] = labels ∧
      ((odRelabelStore detections labels malTh).1).getD
          (odRelabelStore detections labels malTh).2.1 []
        = odMalDets malTh detections ∧
      ((odRelabelStore detections labels malTh).1).getD
          (odRelabelStore detections labels malTh).2.2 []
        = odMalLabels malTh labels := by
  refine ⟨rfl, rfl, ?_, ?_⟩ <;>
    simp [odRelabelStore, boolMaskRows, setColStore, odMalDets, odMalLabels,
      List.getD]

/-- Claim C8 counterexample: `ap_per_class` does NOT guard its plotting
calls — with `plot=True` and a raising renderer the call aborts with the
exception instead of returning its numeric results. -/
theorem apPerClassChecked_counterexample :
    apPerClassChecked (Except.error 0) true [[1]] [1] [0] [0]
      = Except.error 0 := by
  rfl

/-- Claim C8 amended: `ConfusionMatrix.plot` catches and suppresses every
rendering failure and returns normally, but `ap_per_class` with `plot=True`
does not: a raising rendering call propagates and the numeric results are
not returned. -/
theorem plot_failure_handling :
    (∀ render : Except ℕ Unit, confusionMatrixPlot render = Except.ok ()) ∧
      (∀ (e : ℕ) (tp : List Row) (conf predCls targetCls : List ℚ),
        apPerClassChecked (Except.error e) true tp conf predCls targetCls
          = Except.error e) := by
  constructor
  · intro render
    cases render with
    | ok _ => rfl
    | error _ => rfl
  · intro e tp conf predCls targetCls
    rfl

/- Column-0 plumbing for claim C9. -/

theorem getD_zero_map (f : ℚ → ℚ) : ∀ {r : Row}, r ≠ [] →
    (r.map f).getD 0 0 = f (r.getD 0 0) := by
  intro r hr
  cases r with
  | nil => exact absurd rfl hr
  | cons x xs => rfl

theorem col0_map_map (rows : List Row) (f : ℚ → ℚ)
    (h : ∀ r ∈ rows, r ≠ []) :
    getCol 0 (rows.map (fun r => r.map f)) = (getCol 0 rows).map f := by
  simp only [getCol, List.map_map]
  exact List.map_congr_left (fun r hr => getD_zero_map f (h r hr))

theorem zipWith_ne_nil {g : ℚ → ℚ → ℚ} {a b : Row}
    (ha : a ≠ []) (hb : b ≠ []) : List.zipWith g a b ≠ [] := by
  cases a with
  | nil => exact absurd rfl ha
  | cons x xs =>
    cases b with
    | nil => exact absurd rfl hb
    | cons y ys => simp

theorem getD_zero_zipWith {g : ℚ → ℚ → ℚ} {a b : Row}
    (ha : a ≠ []) (hb : b ≠ []) :
    (List.zipWith g a b).getD 0 0 = g (a.getD 0 0) (b.getD 0 0) := by
  cases a with
  | nil => exact absurd rfl ha
  | cons x xs =>
    cases b with
    | nil => exact absurd rfl hb
    | cons y ys => rfl

theorem col0_zipWith (g : ℚ → ℚ → ℚ) :
    ∀ (A B : List Row), (∀ r ∈ A, r ≠ []) → (∀ r ∈ B, r ≠ []) →
      getCol 0 (List.zipWith (fun a b => List.zipWith g a b) A B)
        = List.zipWith g (getCol 0 A) (getCol 0 B) := by
  intro A
  induction A with
  | nil => intro B _ _; simp [getCol]
  | cons a A ih =>
    intro B hA hB
    cases B with
    | nil => simp [getCol]
    | cons b B =>
      have ha : a ≠ [] := hA a (by simp)
      have hb : b ≠ [] := hB b (by simp)
      simp only [List.zipWith_cons_cons, getCol, List.map_cons]
      rw [getD_zero_zipWith ha hb]
      have htail := ih B (fun r hr => hA r (by simp [hr]))
        (fun r hr => hB r (by simp [hr]))
      simp only [getCol] at htail
      rw [htail]

theorem col0_cumsumAxis0Aux :
    ∀ (rows : List Row) (acc : Row), acc ≠ [] → (∀ r ∈ rows, r ≠ []) →
      getCol 0 (cumsumAxis0Aux acc rows)
        = cumsumAux (acc.getD 0 0) (getCol 0 rows) := by
  intro rows
  induction rows with
  | nil => intro acc _ _; simp [cumsumAxis0Aux, cumsumAux, getCol]
  | cons r rs ih =>
    intro acc hacc hrows
    have hr : r ≠ [] := hrows r (by simp)
    have hs : List.zipWith (fun a b => a + b) acc r ≠ [] :=
      zipWith_ne_nil hacc hr
    simp only [cumsumAxis0Aux, getCol, List.map_cons, cumsumAux]
    rw [getD_zero_zipWith hacc hr]
    have htail := ih (List.zipWith (fun a b => a + b) acc r) hs
      (fun q hq => hrows q (by simp [hq]))
    simp only [getCol] at htail
    rw [htail, getD_zero_zipWith hacc hr]

theorem col0_cumsumAxis0 (rows : List Row) (h : ∀ r ∈ rows, r ≠ []) :
    getCol 0 (cumsumAxis0 rows) = cumsum (getCol 0 rows) := by
  cases rows with
  | nil => simp [cumsumAxis0, cumsum, getCol]
  | cons r rs =>
    simp only [cumsumAxis0, cumsum, getCol, List.map_cons]
    have htail := col0_cumsumAxis0Aux rs r (h r (by simp))
      (fun q hq => h q (by simp [hq]))
    simp only [getCol] at htail
    rw [htail]

theorem ne_nil_of_mem_cumsumAxis0Aux :
    ∀ (rows : List Row) (acc : Row), acc ≠ [] → (∀ r ∈ rows, r ≠ []) →
      ∀ q ∈ cumsumAxis0Aux acc rows, q ≠ [] := by
  intro rows
  induction rows with
  | nil => intro acc _ _ q hq; simp [cumsumAxis0Aux] at hq
  | cons r rs ih =>
    intro acc hacc hrows q hq
    have hr : r ≠ [] := hrows r (by simp)
    have hs : List.zipWith (fun a b => a + b) acc r ≠ [] :=
      zipWith_ne_nil hacc hr
    simp only [cumsumAxis0Aux, List.mem_cons] at hq
    rcases hq with h | h
    · subst h; exact hs
    · exact ih _ hs (fun p hp => hrows p (by simp [hp])) q h

theorem ne_nil_of_mem_cumsumAxis0 (rows : List Row)
    (h : ∀ r ∈ rows, r ≠ []) : ∀ q ∈ cumsumAxis0 rows, q ≠ [] := by
  cases rows with
  | nil => intro q hq; simp [cumsumAxis0] at hq
  | cons r rs =>
    intro q hq
    simp only [cumsumAxis0, List.mem_cons] at hq
    rcases hq with h1 | h1
    · rw [h1]; exact h r (by simp)
    · exact ne_nil_of_mem_cumsumAxis0Aux rs r (h r (by simp))
        (fun p hp => h p (by simp [hp])) q h1

theorem mem_argsortDesc {conf : List ℚ} {k : ℕ} (h : k ∈ argsortDesc conf) :
    k < conf.length := by
  simp only [argsortDesc, List.mem_map] at h
  obtain ⟨p, hp, rfl⟩ := h
  exact List.fst_lt_of_mem_enum ((List.perm_insertionSort _ _).mem_iff.mp hp)

theorem length_argsortDesc (conf : List ℚ) :
    (argsortDesc conf).length = conf.length := by
  simp [argsortDesc, (List.perm_insertionSort
    (fun a b : ℕ × ℚ => b.2 ≤ a.2) conf.enum).length_eq, List.enum_length]

theorem map_ne_nil {f : ℚ → ℚ} {r : Row} (hr : r ≠ []) : r.map f ≠ [] := by
  cases r with
  | nil => exact absurd rfl hr
  | cons x xs => simp

theorem perClassCurves_first_column (tpS₁ tpS₂ : List Row)
    (confS pcS targetCls : List ℚ) (nT₁ nT₂ : ℕ) (c : ℚ)
    (hcol : ∀ k < pcS.length, (tpS₁.getD k []).getD 0 0 = (tpS₂.getD k []).getD 0 0)
    (h1 : ∀ k < pcS.length, tpS₁.getD k [] ≠ [])
    (h2 : ∀ k < pcS.length, tpS₂.getD k [] ≠ []) :
    (perClassCurves tpS₁ confS pcS targetCls nT₁ c).1
        = (perClassCurves tpS₂ confS pcS targetCls nT₂ c).1 ∧
      (perClassCurves tpS₁ confS pcS targetCls nT₁ c).2.1
        = (perClassCurves tpS₂ confS pcS targetCls nT₂ c).2.1 := by
  by_cases hcase :
      ((List.range pcS.length).filter (fun k => pcS.getD k 0 == c)).length = 0 ∨
        targetCls.countP (fun t => t == c) = 0
  · simp only [perClassCurves, if_pos hcase]
    constructor <;> simp
  · simp only [perClassCurves, if_neg hcase]
    set mIdx := (List.range pcS.length).filter (fun k => pcS.getD k 0 == c)
      with hmIdx
    set nl := targetCls.countP (fun t => t == c) with hnl
    have hmem : ∀ k ∈ mIdx, k < pcS.length := by
      intro k hk
      rw [hmIdx] at hk
      simp only [List.mem_filter, List.mem_range] at hk
      exact hk.1
    have hne₁ : ∀ r ∈ mIdx.map (fun k => tpS₁.getD k []), r ≠ [] := by
      intro r hr
      simp only [List.mem_map] at hr
      obtain ⟨k, hk, rfl⟩ := hr
      exact h1 k (hmem k hk)
    have hne₂ : ∀ r ∈ mIdx.map (fun k => tpS₂.getD k []), r ≠ [] := by
      intro r hr
      simp only [List.mem_map] at hr
      obtain ⟨k, hk, rfl⟩ := hr
      exact h2 k (hmem k hk)
    have hne₁' : ∀ r ∈ (mIdx.map (fun k => tpS₁.getD k [])).map
        (fun r => r.map (fun v => 1 - v)), r ≠ [] := by
      intro r hr
      simp only [List.mem_map] at hr
      obtain ⟨q, ⟨k, hk, rfl⟩, rfl⟩ := hr
      exact map_ne_nil (h1 k (hmem k hk))
    have hne₂' : ∀ r ∈ (mIdx.map (fun k => tpS₂.getD k [])).map
        (fun r => r.map (fun v => 1 - v)), r ≠ [] := by
      intro r hr
      simp only [List.mem_map] at hr
      obtain ⟨q, ⟨k, hk, rfl⟩, rfl⟩ := hr
      exact map_ne_nil (h2 k (hmem k hk))
    have hsel : getCol 0 (mIdx.map (fun k => tpS₁.getD k []))
        = getCol 0 (mIdx.map (fun k => tpS₂.getD k [])) := by
      simp only [getCol, List.map_map]
      exact List.map_congr_left (fun k hk => hcol k (hmem k hk))
    have htpc : getCol 0 (cumsumAxis0 (mIdx.map (fun k => tpS₁.getD k [])))
        = getCol 0 (cumsumAxis0 (mIdx.map (fun k => tpS₂.getD k []))) := by
      rw [col0_cumsumAxis0 _ hne₁, col0_cumsumAxis0 _ hne₂, hsel]
    have hfpc : getCol 0 (cumsumAxis0 ((mIdx.map (fun k => tpS₁.getD k [])).map
          (fun r => r.map (fun v => 1 - v))))
        = getCol 0 (cumsumAxis0 ((mIdx.map (fun k => tpS₂.getD k [])).map
          (fun r => r.map (fun v => 1 - v)))) := by
      rw [col0_cumsumAxis0 _ hne₁', col0_cumsumAxis0 _ hne₂',
        col0_map_map _ _ hne₁, col0_map_map _ _ hne₂, hsel]
    have hrec : getCol 0 ((cumsumAxis0 (mIdx.map (fun k => tpS₁.getD k []))).map
          (fun r => r.map (fun v => v / ((nl : ℚ) + epsQ))))
        = getCol 0 ((cumsumAxis0 (mIdx.map (fun k => tpS₂.getD k []))).map
          (fun r => r.map (fun v => v / ((nl : ℚ) + epsQ)))) := by
      rw [col0_map_map _ _ (ne_nil_of_mem_cumsumAxis0 _ hne₁),
        col0_map_map _ _ (ne_nil_of_mem_cumsumAxis0 _ hne₂), htpc]
    have hprec : getCol 0 (List.zipWith
          (fun tr fr => List.zipWith (fun t f => t / (t + f)) tr fr)
          (cumsumAxis0 (mIdx.map (fun k => tpS₁.getD k [])))
          (cumsumAxis0 ((mIdx.map (fun k => tpS₁.getD k [])).map
            (fun r => r.map (fun v => 1 - v)))))
        = getCol 0 (List.zipWith
          (fun tr fr => List.zipWith (fun t f => t / (t + f)) tr fr)
          (cumsumAxis0 (mIdx.map (fun k => tpS₂.getD k [])))
          (cumsumAxis0 ((mIdx.map (fun k => tpS₂.getD k [])).map
            (fun r => r.map (fun v => 1 - v))))) := by
      rw [col0_zipWith _ _ _ (ne_nil_of_mem_cumsumAxis0 _ hne₁)
          (ne_nil_of_mem_cumsumAxis0 _ hne₁'),
        col0_zipWith _ _ _ (ne_nil_of_mem_cumsumAxis0 _ hne₂)
          (ne_nil_of_mem_cumsumAxis0 _ hne₂'),
        htpc, hfpc]
    refine ⟨?_, ?_⟩
    · rw [hrec]
    · rw [hprec]

theorem getD_getCol (rows : List Row) (j : ℕ) (hj : j < rows.length) :
    (rows.getD j []).getD 0 0 = (getCol 0 rows).getD j 0 := by
  have hj' : j < (getCol 0 rows).length := by simpa [getCol] using hj
  rw [List.getD_eq_getElem rows [] hj, List.getD_eq_getElem _ _ hj']
  simp [getCol]

set_option maxRecDepth 8000 in
/-- Claim C9: the interpolated precision/recall curves of `ap_per_class` —
and hence the returned precision, recall and F1 values at the chosen
operating point — read only the FIRST column of `tp`: two `tp` matrices
agreeing on column 0 yield identical `p`, `r` and `f1` outputs (only the
returned `ap` array can differ through the extra threshold columns). -/
theorem apPerClass_first_tp_column (tp₁ tp₂ : List Row)
    (conf predCls targetCls : List ℚ)
    (hlen : tp₁.length = conf.length)
    (hne₁ : ∀ r ∈ tp₁, r ≠ []) (hne₂ : ∀ r ∈ tp₂, r ≠ [])
    (hcol : getCol 0 tp₁ = getCol 0 tp₂) :
    (apPerClass tp₁ conf predCls targetCls).p
        = (apPerClass tp₂ conf predCls targetCls).p ∧
      (apPerClass tp₁ conf predCls targetCls).r
        = (apPerClass tp₂ conf predCls targetCls).r ∧
      (apPerClass tp₁ conf predCls targetCls).f1
        = (apPerClass tp₂ conf predCls targetCls).f1 := by
  have hlen12 : tp₁.length = tp₂.length := by
    have h := congrArg List.length hcol
    simpa [getCol] using h
  have hlen₂ : tp₂.length = conf.length := hlen12.symm.trans hlen
  have hplen : ((argsortDesc conf).map (fun k => predCls.getD k 0)).length
      = (argsortDesc conf).length := by simp
  have hkey : ∀ k < ((argsortDesc conf).map (fun k => predCls.getD k 0)).length,
      ((argsortDesc conf).map (fun k => tp₁.getD k [])).getD k [] ≠ [] ∧
        ((argsortDesc conf).map (fun k => tp₂.getD k [])).getD k [] ≠ [] ∧
        (((argsortDesc conf).map (fun k => tp₁.getD k [])).getD k []).getD 0 0
          = (((argsortDesc conf).map (fun k => tp₂.getD k [])).getD k []).getD 0 0 := by
    intro k hk
    have hk' : k < (argsortDesc conf).length := by rwa [hplen] at hk
    have hm₁ : k < ((argsortDesc conf).map (fun k => tp₁.getD k [])).length := by
      simpa using hk'
    have hm₂ : k < ((argsortDesc conf).map (fun k => tp₂.getD k [])).length := by
      simpa using hk'
    have he₁ : ((argsortDesc conf).map (fun k => tp₁.getD k [])).getD k []
        = tp₁.getD ((argsortDesc conf)[k]) [] := by
      rw [List.getD_eq_getElem _ _ hm₁]
      simp
    have he₂ : ((argsortDesc conf).map (fun k => tp₂.getD k [])).getD k []
        = tp₂.getD ((argsortDesc conf)[k]) [] := by
      rw [List.getD_eq_getElem _ _ hm₂]
      simp
    have hord : (argsortDesc conf)[k] < conf.length :=
      mem_argsortDesc (List.getElem_mem hk')
    have hb₁ : (argsortDesc conf)[k] < tp₁.length := by rw [hlen]; exact hord
    have hb₂ : (argsortDesc conf)[k] < tp₂.length := by rw [hlen₂]; exact hord
    refine ⟨?_, ?_, ?_⟩
    · rw [he₁, List.getD_eq_getElem _ _ hb₁]
      exact hne₁ _ (List.getElem_mem hb₁)
    · rw [he₂, List.getD_eq_getElem _ _ hb₂]
      exact hne₂ _ (List.getElem_mem hb₂)
    · rw [he₁, he₂, getD_getCol tp₁ _ hb₁, getD_getCol tp₂ _ hb₂, hcol]
  have hApply : ∀ c ∈ uniqueSorted targetCls,
      (perClassCurves ((argsortDesc conf).map (fun k => tp₁.getD k []))
            ((argsortDesc conf).map (fun k => conf.getD k 0))
            ((argsortDesc conf).map (fun k => predCls.getD k 0)) targetCls
            tp₁.headI.length c).1
          = (perClassCurves ((argsortDesc conf).map (fun k => tp₂.getD k []))
            ((argsortDesc conf).map (fun k => conf.getD k 0))
            ((argsortDesc conf).map (fun k => predCls.getD k 0)) targetCls
            tp₂.headI.length c).1 ∧
        (perClassCurves ((argsortDesc conf).map (fun k => tp₁.getD k []))
            ((argsortDesc conf).map (fun k => conf.getD k 0))
            ((argsortDesc conf).map (fun k => predCls.getD k 0)) targetCls
            tp₁.headI.length c).2.1
          = (perClassCurves ((argsortDesc conf).map (fun k => tp₂.getD k []))
            ((argsortDesc conf).map (fun k => conf.getD k 0))
            ((argsortDesc conf).map (fun k => predCls.getD k 0)) targetCls
            tp₂.headI.length c).2.1 := by
    intro c _
    exact perClassCurves_first_column _ _ _ _ _ _ _ c
      (fun k hk => (hkey k hk).2.2) (fun k hk => (hkey k hk).1)
      (fun k hk => (hkey k hk).2.1)
  have hrowsR : ((uniqueSorted targetCls).map (fun c =>
        perClassCurves ((argsortDesc conf).map (fun k => tp₁.getD k []))
          ((argsortDesc conf).map (fun k => conf.getD k 0))
          ((argsortDesc conf).map (fun k => predCls.getD k 0)) targetCls
          tp₁.headI.length c)).map (fun t => t.1)
      = ((uniqueSorted targetCls).map (fun c =>
        perClassCurves ((argsortDesc conf).map (fun k => tp₂.getD k []))
          ((argsortDesc conf).map (fun k => conf.getD k 0))
          ((argsortDesc conf).map (fun k => predCls.getD k 0)) targetCls
          tp₂.headI.length c)).map (fun t => t.1) := by
    rw [List.map_map, List.map_map]
    exact List.map_congr_left (fun c hc => (hApply c hc).1)
  have hrowsP : ((uniqueSorted targetCls).map (fun c =>
        perClassCurves ((argsortDesc conf).map (fun k => tp₁.getD k []))
          ((argsortDesc conf).map (fun k => conf.getD k 0))
          ((argsortDesc conf).map (fun k => predCls.getD k 0)) targetCls
          tp₁.headI.length c)).map (fun t => t.2.1)
      = ((uniqueSorted targetCls).map (fun c =>
        perClassCurves ((argsortDesc conf).map (fun k => tp₂.getD k []))
          ((argsortDesc conf).map (fun k => conf.getD k 0))
          ((argsortDesc conf).map (fun k => predCls.getD k 0)) targetCls
          tp₂.headI.length c)).map (fun t => t.2.1) := by
    rw [List.map_map, List.map_map]
    exact List.map_congr_left (fun c hc => (hApply c hc).2)
  simp only [apPerClass]
  rw [hrowsR, hrowsP]
  exact ⟨rfl, rfl, rfl⟩

/-- Witness for C9: `tp₁ = [[1, 0]]` (two threshold columns) and
`tp₂ = [[1]]` (one column) agree on column 0 and give identical `p`, `r`,
`f1`. -/
theorem apPerClass_first_tp_column_witness :
    ([[(1 : ℚ), 0]] : List Row).length = [(2 : ℚ)].length ∧
      (∀ r ∈ ([[(1 : ℚ), 0]] : List Row), r ≠ []) ∧
      (∀ r ∈ ([[(1 : ℚ)]] : List Row), r ≠ []) ∧
      getCol 0 [[(1 : ℚ), 0]] = getCol 0 [[(1 : ℚ)]] ∧
      (apPerClass [[(1 : ℚ), 0]] [2] [0] [0]).p
        = (apPerClass [[(1 : ℚ)]] [2] [0] [0]).p ∧
      (apPerClass [[(1 : ℚ), 0]] [2] [0] [0]).r
        = (apPerClass [[(1 : ℚ)]] [2] [0] [0]).r ∧
      (apPerClass [[(1 : ℚ), 0]] [2] [0] [0]).f1
        = (apPerClass [[(1 : ℚ)]] [2] [0] [0]).f1 :=
  ⟨by decide, by decide, by decide, by decide,
    apPerClass_first_tp_column [[1, 0]] [[1]] [2] [0] [0]
      (by decide) (by decide) (by decide) (by decide)⟩

end Metrics
